import Mathlib

/-!
Shallow embedding of the algorithmic core of the micromobility dashboard
(src/app.py): the segment-merge traversal `merge_connected_segments`
(lines 32-71) and the percentile / width classification inside
`plot_linestrings` (lines 96-138), together with theorems checking the
specification's claims about them.

Coordinates are modelled as rational pairs.  Python's `round(x, 3)` is
modelled as rounding `x * 1000` to the nearest integer; exact half-thousandth
ties (where Python's half-even rounding would differ) occur in none of the
inputs considered here.
-/

namespace Micromobility

/-- A planar coordinate `(x, y)` as stored in a shapely coordinate list. -/
abbrev Point := ℚ × ℚ

/-- `round(q, 3)`: round to three decimal places (src/app.py line 44). -/
def round3q (q : ℚ) : ℚ := (round (q * 1000) : ℤ) / 1000

/-- `round_coords` (src/app.py lines 42-44): round a coordinate pair to three
decimal places.  The precision `3` is hard-coded in the source. -/
def round_coords (c : Point) : Point := (round3q c.1, round3q c.2)

/-- Modelled from the spec: rounding to a caller-supplied number `p` of
decimal places, as required by the spec's contract
`merge(segments, precision: int = 3)`; the source has no such parameter. -/
def roundToPrecision (p : ℕ) (q : ℚ) : ℚ := (round (q * 10 ^ p) : ℤ) / 10 ^ p

/-- Modelled from the spec: `round_coords` with a precision parameter. -/
def round_coords_at (p : ℕ) (c : Point) : Point :=
  (roundToPrecision p c.1, roundToPrecision p c.2)

/-! ## Classifier (`plot_linestrings`, src/app.py lines 96-138) -/

/-- `scipy.stats.percentileofscore(a, score)` with the default
`kind = 'rank'` (src/app.py line 103): with `left` the number of elements
`< score` and `right` the number of elements `≤ score`, the result is
`(left + right + plus1) * 50 / n`, where `plus1` is `1` exactly when `score`
occurs in `a`. -/
def percentileofscore (a : List ℚ) (score : ℚ) : ℚ :=
  let left := (a.filter (fun x => decide (x < score))).length
  let right := (a.filter (fun x => decide (x ≤ score))).length
  let plus1 : ℚ := if left < right then 1 else 0
  ((left : ℚ) + (right : ℚ) + plus1) * 50 / (a.length : ℚ)

/-- Modelled from the spec: the mean-tie percentile rank, "the percentage of
the distribution strictly less than its value plus half the count of equal
values, expressed as 0-100". -/
def percentileRankMean (a : List ℚ) (score : ℚ) : ℚ :=
  100 * ((a.filter (fun x => decide (x < score))).length : ℚ) / (a.length : ℚ)
    + 100 * ((a.filter (fun x => decide (x = score))).length : ℚ) / (a.length : ℚ) / 2

/-- The one failure the classification pipeline can raise: `np.percentile`
fails when the data array is empty — the condition the spec names
`EmptyDatasetError`. -/
inductive ClassifierError where
  | emptyDataset
deriving DecidableEq, Repr

/-- One linearly interpolated percentile of `a` (numpy's default method):
the value at position `q / 100 * (n - 1)` between the sorted order
statistics. -/
def npPercentileScalar (a : List ℚ) (q : ℚ) : ℚ :=
  let s := List.insertionSort (· ≤ ·) a
  let pos := q * ((a.length : ℚ) - 1) / 100
  let i := (⌊pos⌋).toNat
  let lo := s.getD i 0
  let hi := s.getD (i + 1) lo
  lo + (pos - (i : ℚ)) * (hi - lo)

/-- `np.percentile(a, qs)` (src/app.py line 106): fails on an empty data
array, otherwise evaluates every requested percentile position. -/
def npPercentile (a : List ℚ) (qs : List ℚ) : Except ClassifierError (List ℚ) :=
  if a.isEmpty then Except.error ClassifierError.emptyDataset
  else Except.ok (qs.map (npPercentileScalar a))

/-- `scale_width` (src/app.py lines 119-121).  Its docstring says "Scales
line width between 1 and 5", but the body returns `6 + 2 * ratio`. -/
def scale_width (value min_val max_val : ℚ) : ℚ :=
  6 + 2 * (if max_val > min_val then (value - min_val) / (max_val - min_val) else 1)

/-- One record of the GeoDataFrame: a polyline geometry plus the optional
`count` and `percentage` attributes. -/
structure SegRow where
  geometry : List Point
  count : Option ℚ
  percentage : Option ℚ
deriving DecidableEq, Repr

/-- The `count` column after `gdf['count'].fillna(50)` (src/app.py line 99). -/
def fillCount (r : SegRow) : ℚ := r.count.getD 50

/-- The `percentage` column after `gdf['percentage'].fillna(0.001)`
(src/app.py line 100). -/
def fillPercentage (r : SegRow) : ℚ := r.percentage.getD (1 / 1000)

/-- pandas `Series.min` over a column; the `0` default is never reached
because the caller only takes the minimum of a non-empty column. -/
def colMin : List ℚ → ℚ
  | [] => 0
  | x :: xs => xs.foldl min x

/-- pandas `Series.max` over a column (same remark as `colMin`). -/
def colMax : List ℚ → ℚ
  | [] => 0
  | x :: xs => xs.foldl max x

/-- The hard-coded percentile positions of
`np.percentile(gdf['count'], [0, 30, 50, 70, 90])` (src/app.py line 106). -/
def quantile_cutpoints : List ℚ := [0, 30, 50, 70, 90]

/-- The classification core of `plot_linestrings` (src/app.py lines 96-138):
fill missing counts and percentages, compute each segment's percentile rank
over the count distribution, compute the step-colormap quantiles (their
values feed only the colour rendering, which is outside the spec's scope),
and linearly scale each segment's display width from its percentage.  The
result keeps one `(percentile rank, display width)` pair per input row, in
input order; the folium map-building side effects are not modelled. -/
def plot_linestrings (rows : List SegRow) : Except ClassifierError (List (ℚ × ℚ)) :=
  let counts := rows.map fillCount
  let pcts := rows.map fillPercentage
  match npPercentile counts quantile_cutpoints with
  | Except.error e => Except.error e
  | Except.ok _quantiles =>
      let minP := colMin pcts
      let maxP := colMax pcts
      Except.ok (rows.map (fun r =>
        (percentileofscore counts (fillCount r),
          scale_width (fillPercentage r) minP maxP)))

/-! ## Segment merge (`merge_connected_segments`, src/app.py lines 32-71) -/

/-- The `first_coord` column (src/app.py line 46): the rounded first
coordinate of every geometry, in frame order. -/
def firstCoords (geoms : List (List Point)) : List Point :=
  geoms.map (fun g => round_coords (g.headD (0, 0)))

/-- The `last_coord` column (src/app.py line 47). -/
def lastCoords (geoms : List (List Point)) : List Point :=
  geoms.map (fun g => round_coords (g.getLastD (0, 0)))

/-- `gdf[gdf['first_coord'] == gdf.loc[idx, 'last_coord']].index.tolist()`
(src/app.py line 60): the indices, in frame order, whose rounded first
coordinate equals segment `idx`'s rounded last coordinate. -/
def nextSegments (n : ℕ) (fc lc : List Point) (idx : ℕ) : List ℕ :=
  (List.range n).filter (fun j => decide (fc.getD j (0, 0) = lc.getD idx (0, 0)))

/-- `list(gdf.loc[i, 'geometry'].coords)[1:]` (src/app.py line 58). -/
def segTail (geoms : List (List Point)) (i : ℕ) : List Point :=
  (geoms.getD i []).drop 1

theorem unvisited_card_lt (n idx : ℕ) (visited : List ℕ)
    (h1 : idx < n) (h2 : idx ∉ visited) :
    ((Finset.range n).filter (fun j => j ∉ idx :: visited)).card
      < ((Finset.range n).filter (fun j => j ∉ visited)).card := by
  apply Finset.card_lt_card
  rw [Finset.ssubset_iff_of_subset]
  · exact ⟨idx, by simp [h1, h2], by simp⟩
  · intro j hj
    simp only [Finset.mem_filter, Finset.mem_range, List.mem_cons, not_or] at hj ⊢
    exact ⟨hj.1, hj.2.2⟩

/-- `build_super_segment` (src/app.py lines 53-62), written as an equivalent
worklist traversal: popping an index already in `visited` is the source's
early return; otherwise the index is marked visited, its coordinates after
the first are appended (the source comment: "Avoid duplicate start points"),
and its successor segments are processed next, ahead of the remaining
work — exactly the order of the source's recursion.  The `geoms.length ≤ idx`
test only makes the recursion well-defined for out-of-range indices, which no
caller produces: every index comes from `List.range geoms.length`. -/
def dfsMerge (geoms : List (List Point)) (fc lc : List Point) :
    List ℕ → List ℕ → List Point → List ℕ × List Point
  | [], visited, acc => (visited, acc)
  | idx :: stack, visited, acc =>
    if h : idx ∈ visited ∨ geoms.length ≤ idx then
      dfsMerge geoms fc lc stack visited acc
    else
      dfsMerge geoms fc lc (nextSegments geoms.length fc lc idx ++ stack)
        (idx :: visited) (acc ++ segTail geoms idx)
termination_by stack visited _ =>
  (((Finset.range geoms.length).filter (fun j => j ∉ visited)).card, stack.length)
decreasing_by
  · exact Prod.Lex.right _ (by simp)
  · apply Prod.Lex.left
    push_neg at h
    exact unvisited_card_lt _ _ _ (by omega) h.1

/-- The outer loop of `merge_connected_segments` (src/app.py lines 63-68):
every unvisited index seeds a group with its full coordinate list, the
traversal extends it, and the finished coordinate list is appended to the
output. -/
def mergeLoop (geoms : List (List Point)) (fc lc : List Point) :
    List ℕ → List ℕ → List (List Point) → List ℕ × List (List Point)
  | [], visited, groups => (visited, groups)
  | idx :: todo, visited, groups =>
    if idx ∈ visited then mergeLoop geoms fc lc todo visited groups
    else
      let r := dfsMerge geoms fc lc [idx] visited (geoms.getD idx [])
      mergeLoop geoms fc lc todo r.1 (groups ++ [r.2])

/-- The geometry-level core of `merge_connected_segments` (src/app.py lines
42-71): compute the rounded endpoint columns, then traverse every segment in
frame order, emitting one merged coordinate list per traversal start. -/
def mergeSegments (geoms : List (List Point)) : List (List Point) :=
  (mergeLoop geoms (firstCoords geoms) (lastCoords geoms)
    (List.range geoms.length) [] []).2

/-- Modelled from the spec: `merge(segments, precision)` — the same traversal
with the endpoint columns rounded to a caller-supplied number of decimal
places, the parameter the spec's contract requires but the source does not
offer. -/
def mergeSegmentsAt (p : ℕ) (geoms : List (List Point)) : List (List Point) :=
  (mergeLoop geoms (geoms.map (fun g => round_coords_at p (g.headD (0, 0))))
    (geoms.map (fun g => round_coords_at p (g.getLastD (0, 0))))
    (List.range geoms.length) [] []).2

/-- The mutable view of the caller's GeoDataFrame that the merge touches:
its rows and its list of column names. -/
structure GeoFrame where
  rows : List SegRow
  columns : List String
deriving DecidableEq, Repr

/-- Column assignment `gdf[c] = ...`: an existing column is overwritten in
place, a new name is appended at the end of the column list. -/
def addColumn (cols : List String) (c : String) : List String :=
  if c ∈ cols then cols else cols ++ [c]

/-- `merge_connected_segments` (src/app.py lines 32-71).  The first component
is the caller's frame after the call: the assignments
`gdf['first_coord'] = ...` and `gdf['last_coord'] = ...` (lines 46-47) mutate
the input frame in place, adding the two endpoint columns; no existing row
data is written.  The second component is the geometry column of the returned
merged GeoDataFrame. -/
def merge_connected_segments (gdf : GeoFrame) : GeoFrame × List (List Point) :=
  (⟨gdf.rows, addColumn (addColumn gdf.columns "first_coord") "last_coord"⟩,
    mergeSegments (gdf.rows.map SegRow.geometry))

/-- The coordinate list a traversal that visits exactly the segments `ms`
(in visit order, starting segment first) produces: the starting segment's
full coordinate list, then the after-the-first coordinates of every visited
segment in visit order. -/
def groupCoords (geoms : List (List Point)) (ms : List ℕ) : List Point :=
  geoms.getD (ms.headD 0) [] ++ (ms.map (segTail geoms)).flatten

/-- Two example segments that connect at precision 2 but not at precision 3:
the first ends at `(1.0006, 0)` (rounds to `(1.001, 0)` at 3 decimals,
`(1.00, 0)` at 2) and the second starts at `(1.0021, 0)` (rounds to
`(1.002, 0)` at 3 decimals, `(1.00, 0)` at 2). -/
abbrev exPrecision : List (List Point) :=
  [[(0, 0), (1.0006, 0)], [(1.0021, 0), (2, 0)]]

/-- An example collection of four classified segments with trip counts
`1, 2, 3, 4`. -/
def rows4 : List SegRow :=
  [⟨[(0, 0), (1, 1)], some 1, none⟩, ⟨[(0, 0), (1, 1)], some 2, none⟩,
   ⟨[(0, 0), (1, 1)], some 3, none⟩, ⟨[(0, 0), (1, 1)], some 4, none⟩]

/-! ## Unfolding lemmas for the traversal -/

theorem dfsMerge_nil (geoms : List (List Point)) (fc lc : List Point)
    (visited : List ℕ) (acc : List Point) :
    dfsMerge geoms fc lc [] visited acc = (visited, acc) := by
  simp [dfsMerge]

theorem dfsMerge_skip (geoms : List (List Point)) (fc lc : List Point)
    (idx : ℕ) (stack visited : List ℕ) (acc : List Point)
    (h : idx ∈ visited ∨ geoms.length ≤ idx) :
    dfsMerge geoms fc lc (idx :: stack) visited acc
      = dfsMerge geoms fc lc stack visited acc := by
  rw [dfsMerge, dif_pos h]

theorem dfsMerge_visit (geoms : List (List Point)) (fc lc : List Point)
    (idx : ℕ) (stack visited : List ℕ) (acc : List Point)
    (h1 : idx ∉ visited) (h2 : idx < geoms.length) :
    dfsMerge geoms fc lc (idx :: stack) visited acc
      = dfsMerge geoms fc lc (nextSegments geoms.length fc lc idx ++ stack)
          (idx :: visited) (acc ++ segTail geoms idx) := by
  rw [dfsMerge, dif_neg (by push_neg; exact ⟨h1, h2⟩)]

/-- A worklist whose entries are all visited already only drains: this is
the visited-set check that terminates the source's recursion. -/
theorem dfsMerge_drain (geoms : List (List Point)) (fc lc : List Point) :
    ∀ (stack visited : List ℕ) (acc : List Point),
      (∀ j ∈ stack, j ∈ visited) →
      dfsMerge geoms fc lc stack visited acc = (visited, acc)
  | [], visited, acc, _ => dfsMerge_nil geoms fc lc visited acc
  | idx :: stack, visited, acc, h => by
    rw [dfsMerge_skip geoms fc lc idx stack visited acc (Or.inl (h idx (List.mem_cons_self idx stack)))]
    exact dfsMerge_drain geoms fc lc stack visited acc
      (fun j hj => h j (List.mem_cons_of_mem idx hj))

/-- What one traversal run does: it visits a list `newly` of fresh in-range
indices (recorded in visit order), pushes them onto the visited list, and
appends exactly the after-the-first coordinates of each newly visited
segment, in visit order, to the accumulator.  Every in-range index on the
worklist ends up visited. -/
theorem dfsMerge_run (geoms : List (List Point)) (fc lc : List Point)
    (stack visited : List ℕ) (acc : List Point) (hnd : visited.Nodup) :
    ∃ newly : List ℕ,
      dfsMerge geoms fc lc stack visited acc
        = (newly.reverse ++ visited, acc ++ (newly.map (segTail geoms)).flatten) ∧
      (newly.reverse ++ visited).Nodup ∧
      (∀ i ∈ newly, i < geoms.length ∧ i ∉ visited) ∧
      (∀ j ∈ stack, j < geoms.length → j ∈ newly ∨ j ∈ visited) := by
  induction stack, visited, acc using dfsMerge.induct geoms fc lc with
  | case1 visited acc =>
    exact ⟨[], by simp [dfsMerge_nil], by simpa using hnd, by simp, by simp⟩
  | case2 idx stack visited acc h ih =>
    obtain ⟨newly, heq, hnodup, hfresh, hcover⟩ := ih hnd
    refine ⟨newly, by rwa [dfsMerge_skip geoms fc lc idx stack visited acc h],
      hnodup, hfresh, ?_⟩
    intro j hj hjn
    rcases List.mem_cons.mp hj with rfl | hj'
    · rcases h with hv | hn
      · exact Or.inr hv
      · omega
    · exact hcover j hj' hjn
  | case3 idx stack visited acc h ih =>
    push_neg at h
    obtain ⟨h1, h2⟩ := h
    obtain ⟨newly, heq, hnodup, hfresh, hcover⟩ :=
      ih (by exact List.nodup_cons.mpr ⟨h1, hnd⟩)
    refine ⟨idx :: newly, ?_, ?_, ?_, ?_⟩
    · rw [dfsMerge_visit geoms fc lc idx stack visited acc h1 (by omega), heq]
      simp [List.append_assoc]
    · simpa [List.append_assoc] using hnodup
    · intro i hi
      rcases List.mem_cons.mp hi with rfl | hi'
      · exact ⟨by omega, h1⟩
      · obtain ⟨hlt, hnv⟩ := hfresh i hi'
        exact ⟨hlt, fun hmem => hnv (List.mem_cons_of_mem idx hmem)⟩
    · intro j hj hjn
      rcases List.mem_cons.mp hj with rfl | hj'
      · exact Or.inl (List.mem_cons_self _ _)
      · rcases hcover j (List.mem_append_right _ hj') hjn with hn | hv
        · exact Or.inl (List.mem_cons_of_mem idx hn)
        · rcases List.mem_cons.mp hv with rfl | hv'
          · exact Or.inl (List.mem_cons_self j newly)
          · exact Or.inr hv'

/-- What the outer loop does: it emits one group per traversal start, each
group being `groupCoords` of a non-empty list of member indices, and the
member lists of all groups together contain each visited index exactly
once. -/
theorem mergeLoop_run (geoms : List (List Point)) (fc lc : List Point) :
    ∀ (todo visited : List ℕ) (groups : List (List Point)),
      visited.Nodup → (∀ j ∈ todo, j < geoms.length) →
      ∃ memberss : List (List ℕ),
        (mergeLoop geoms fc lc todo visited groups).2
          = groups ++ memberss.map (groupCoords geoms) ∧
        (mergeLoop geoms fc lc todo visited groups).1.Nodup ∧
        (mergeLoop geoms fc lc todo visited groups).1.Perm
          (memberss.flatten ++ visited) ∧
        (∀ ms ∈ memberss, ms ≠ []) ∧
        (∀ i ∈ memberss.flatten, i < geoms.length) ∧
        (∀ j ∈ todo, j ∈ (mergeLoop geoms fc lc todo visited groups).1) ∧
        (∀ j ∈ visited, j ∈ (mergeLoop geoms fc lc todo visited groups).1) := by
  intro todo
  induction todo with
  | nil =>
    intro visited groups hnd _
    exact ⟨[], by simp [mergeLoop], by simpa [mergeLoop] using hnd, by simp [mergeLoop],
      by simp, by simp, by simp, fun j hj => by simpa [mergeLoop] using hj⟩
  | cons idx todo ih =>
    intro visited groups hnd htodo
    by_cases hv : idx ∈ visited
    · have hstep : mergeLoop geoms fc lc (idx :: todo) visited groups
          = mergeLoop geoms fc lc todo visited groups := by
        simp [mergeLoop, hv]
      obtain ⟨memberss, c1, c2, c3, c4, c5, c6, c7⟩ :=
        ih visited groups hnd (fun j hj => htodo j (List.mem_cons_of_mem idx hj))
      refine ⟨memberss, by rw [hstep]; exact c1, by rw [hstep]; exact c2,
        by rw [hstep]; exact c3, c4, c5, ?_, by rw [hstep]; exact c7⟩
      intro j hj
      rw [hstep]
      rcases List.mem_cons.mp hj with rfl | hj'
      · exact c7 j hv
      · exact c6 j hj'
    · have hidx : idx < geoms.length := htodo idx (List.mem_cons_self idx todo)
      obtain ⟨newly, heq, hnodup, hfresh, _hcover⟩ :=
        dfsMerge_run geoms fc lc (nextSegments geoms.length fc lc idx ++ [])
          (idx :: visited) (geoms.getD idx [] ++ segTail geoms idx)
          (List.nodup_cons.mpr ⟨hv, hnd⟩)
      have hdfs : dfsMerge geoms fc lc [idx] visited (geoms.getD idx [])
          = (newly.reverse ++ idx :: visited,
             geoms.getD idx [] ++ segTail geoms idx
               ++ (newly.map (segTail geoms)).flatten) := by
        rw [dfsMerge_visit geoms fc lc idx [] visited (geoms.getD idx []) hv hidx, heq]
      have hstep : mergeLoop geoms fc lc (idx :: todo) visited groups
          = mergeLoop geoms fc lc todo (newly.reverse ++ idx :: visited)
              (groups ++ [geoms.getD idx [] ++ segTail geoms idx
                ++ (newly.map (segTail geoms)).flatten]) := by
        simp only [mergeLoop, if_neg hv, hdfs]
      have hg : groupCoords geoms (idx :: newly)
          = geoms.getD idx [] ++ segTail geoms idx
              ++ (newly.map (segTail geoms)).flatten := by
        simp [groupCoords, List.append_assoc]
      obtain ⟨memberss, d1, d2, d3, d4, d5, d6, d7⟩ :=
        ih (newly.reverse ++ idx :: visited)
          (groups ++ [geoms.getD idx [] ++ segTail geoms idx
            ++ (newly.map (segTail geoms)).flatten])
          hnodup (fun j hj => htodo j (List.mem_cons_of_mem idx hj))
      refine ⟨(idx :: newly) :: memberss, ?_, by rw [hstep]; exact d2, ?_, ?_, ?_, ?_, ?_⟩
      · rw [hstep, d1]
        simp [groupCoords, List.append_assoc]
      · rw [hstep]
        refine d3.trans ?_
        have hmid : memberss.flatten ++ (newly.reverse ++ idx :: visited)
            = (memberss.flatten ++ newly.reverse) ++ idx :: visited := by
          simp [List.append_assoc]
        rw [hmid]
        refine (List.perm_middle.trans ?_)
        simp only [List.flatten_cons, List.cons_append]
        refine List.Perm.cons idx ?_
        have hassoc : (memberss.flatten ++ newly.reverse) ++ visited
            = memberss.flatten ++ (newly.reverse ++ visited) := by
          simp [List.append_assoc]
        rw [hassoc]
        refine List.Perm.trans List.perm_append_comm ?_
        refine List.Perm.trans
          (((newly.reverse_perm).append_right visited).append_right memberss.flatten) ?_
        have e1 : (newly ++ visited) ++ memberss.flatten
            = newly ++ (visited ++ memberss.flatten) := by
          simp [List.append_assoc]
        rw [e1]
        have e2 : (newly ++ memberss.flatten) ++ visited
            = newly ++ (memberss.flatten ++ visited) := by
          simp [List.append_assoc]
        rw [show newly ++ memberss.flatten ++ visited
            = newly ++ (memberss.flatten ++ visited) from e2]
        exact List.Perm.append_left newly List.perm_append_comm
      · intro ms hms
        rcases List.mem_cons.mp hms with rfl | hms'
        · simp
        · exact d4 ms hms'
      · intro i hi
        simp only [List.flatten_cons, List.mem_append, List.mem_cons] at hi
        rcases hi with (rfl | hn) | hflat
        · exact hidx
        · exact (hfresh i hn).1
        · exact d5 i hflat
      · intro j hj
        rw [hstep]
        rcases List.mem_cons.mp hj with rfl | hj'
        · exact d7 j (by simp)
        · exact d6 j hj'
      · intro j hj
        rw [hstep]
        exact d7 j (by simp [hj])

/-- **C4** — Partition property of the merge.  For every input collection
there is a list of member-index lists, one per output SuperSegment, such
that (i) the member lists together contain every input segment index exactly
once (`Perm` with `range`), (ii) no member list is empty, and (iii) each
output SuperSegment's coordinate list is built from exactly its member
segments' points (the starting segment's full point list followed by the
after-the-first points of each member, in visit order).  Hence every input
segment's points are incorporated into exactly one output SuperSegment and
no segment contributes to two. -/
theorem merge_partition (geoms : List (List Point)) :
    ∃ memberss : List (List ℕ),
      memberss.flatten.Perm (List.range geoms.length) ∧
      (∀ ms ∈ memberss, ms ≠ []) ∧
      mergeSegments geoms = memberss.map (groupCoords geoms) := by
  obtain ⟨memberss, c1, c2, c3, c4, c5, c6, _c7⟩ :=
    mergeLoop_run geoms (firstCoords geoms) (lastCoords geoms)
      (List.range geoms.length) [] [] List.nodup_nil
      (fun j hj => List.mem_range.mp hj)
  refine ⟨memberss, ?_, c4, by simpa [mergeSegments] using c1⟩
  have hperm : (mergeLoop geoms (firstCoords geoms) (lastCoords geoms)
      (List.range geoms.length) [] []).1.Perm memberss.flatten := by
    simpa using c3
  have hnd : memberss.flatten.Nodup := hperm.nodup c2
  have hsub1 : memberss.flatten ⊆ List.range geoms.length := fun i hi =>
    List.mem_range.mpr (c5 i hi)
  have hsub2 : List.range geoms.length ⊆ memberss.flatten := fun j hj =>
    (hperm.mem_iff).mp (c6 j hj)
  exact List.Subperm.antisymm (hnd.subperm hsub1)
    ((List.nodup_range _).subperm hsub2)

/-- Witness for C4 at a two-segment input. -/
theorem merge_partition_witness :
    ∃ memberss : List (List ℕ),
      memberss.flatten.Perm
        (List.range ([[((0 : ℚ), (0 : ℚ)), (1, 0)], [(5, 5), (6, 6)]] :
          List (List Point)).length) ∧
      (∀ ms ∈ memberss, ms ≠ []) ∧
      mergeSegments [[((0 : ℚ), (0 : ℚ)), (1, 0)], [(5, 5), (6, 6)]]
        = memberss.map (groupCoords [[((0 : ℚ), (0 : ℚ)), (1, 0)], [(5, 5), (6, 6)]]) :=
  merge_partition [[((0 : ℚ), (0 : ℚ)), (1, 0)], [(5, 5), (6, 6)]]

theorem mergeLoop_nil (geoms : List (List Point)) (fc lc : List Point)
    (visited : List ℕ) (groups : List (List Point)) :
    mergeLoop geoms fc lc [] visited groups = (visited, groups) := rfl

theorem mergeLoop_skip (geoms : List (List Point)) (fc lc : List Point)
    (idx : ℕ) (todo visited : List ℕ) (groups : List (List Point))
    (h : idx ∈ visited) :
    mergeLoop geoms fc lc (idx :: todo) visited groups
      = mergeLoop geoms fc lc todo visited groups := by
  simp [mergeLoop, h]

theorem mergeLoop_visit (geoms : List (List Point)) (fc lc : List Point)
    (idx : ℕ) (todo visited : List ℕ) (groups : List (List Point))
    (h : idx ∉ visited) :
    mergeLoop geoms fc lc (idx :: todo) visited groups
      = mergeLoop geoms fc lc todo
          (dfsMerge geoms fc lc [idx] visited (geoms.getD idx [])).1
          (groups ++ [(dfsMerge geoms fc lc [idx] visited (geoms.getD idx [])).2]) := by
  simp [mergeLoop, h]

/-- Evaluation of a one-segment merge, for any endpoint columns: the single
segment seeds the group with its full coordinate list and the traversal
appends its tail once more; a self-match (closed loop) only puts the already
visited index 0 back on the worklist, where it is skipped. -/
theorem mergeLoop_single (cs : List Point) (fc lc : List Point) :
    mergeLoop [cs] fc lc [0] [] [] = ([0], [cs ++ cs.drop 1]) := by
  have hstack : ∀ j ∈ nextSegments ([cs] : List (List Point)).length fc lc 0
      ++ ([] : List ℕ), j ∈ ([0] : List ℕ) := by
    intro j hj
    rw [List.append_nil] at hj
    simp only [nextSegments] at hj
    have hj1 : j < 1 := List.mem_range.mp (List.mem_filter.mp hj).1
    interval_cases j
    · simp
  have hr : dfsMerge [cs] fc lc [0] [] cs = ([0], cs ++ cs.drop 1) := by
    rw [dfsMerge_visit [cs] fc lc 0 [] [] cs (by simp) (by simp),
      dfsMerge_drain [cs] fc lc _ [0] (cs ++ segTail [cs] 0) hstack]
    rfl
  rw [mergeLoop_visit [cs] fc lc 0 [] [] [] (by simp),
    show ([cs] : List (List Point)).getD 0 [] = cs from rfl, hr]
  rfl

/-- Evaluation of a two-segment chain, for any endpoint columns in which
segment 1's first-coordinate entry equals segment 0's last-coordinate entry:
one group, `0`'s full list, `0`'s tail, then `1`'s tail. -/
theorem mergeLoop_chain (A B : List Point) (fc lc : List Point)
    (hm : fc.getD 1 (0, 0) = lc.getD 0 (0, 0)) :
    mergeLoop [A, B] fc lc [0, 1] [] []
      = ([1, 0], [(A ++ A.drop 1) ++ B.drop 1]) := by
  have hdrain1 : ∀ acc : List Point,
      dfsMerge [A, B] fc lc
        (nextSegments ([A, B] : List (List Point)).length fc lc 1 ++ [])
        [1, 0] acc = ([1, 0], acc) := by
    intro acc
    apply dfsMerge_drain
    intro j hj
    rw [List.append_nil] at hj
    simp only [nextSegments] at hj
    have hj2 : j < 2 := List.mem_range.mp (List.mem_filter.mp hj).1
    interval_cases j
    · simp
    · simp
  have hstep1 : ∀ acc : List Point,
      dfsMerge [A, B] fc lc [1] [0] acc = ([1, 0], acc ++ B.drop 1) := by
    intro acc
    rw [dfsMerge_visit [A, B] fc lc 1 [] [0] acc (by simp) (by simp),
      hdrain1 (acc ++ segTail [A, B] 1)]
    rfl
  have hstep0 : dfsMerge [A, B] fc lc [0] [] A
      = ([1, 0], (A ++ A.drop 1) ++ B.drop 1) := by
    rw [dfsMerge_visit [A, B] fc lc 0 [] [] A (by simp) (by simp)]
    by_cases hb : fc.getD 0 (0, 0) = lc.getD 0 (0, 0)
    · have hnext : nextSegments ([A, B] : List (List Point)).length fc lc 0
          = [0, 1] := by
        simp only [nextSegments,
          show List.range ([A, B] : List (List Point)).length = [0, 1] from rfl,
          List.filter_cons, List.filter_nil, decide_eq_true hb, decide_eq_true hm]
        simp
      rw [hnext, show ([0, 1] : List ℕ) ++ ([] : List ℕ) = 0 :: [1] from rfl,
        dfsMerge_skip [A, B] fc lc 0 [1] [0] (A ++ segTail [A, B] 0)
          (Or.inl (by simp)),
        hstep1 (A ++ segTail [A, B] 0)]
      rfl
    · have hnext : nextSegments ([A, B] : List (List Point)).length fc lc 0
          = [1] := by
        simp only [nextSegments,
          show List.range ([A, B] : List (List Point)).length = [0, 1] from rfl,
          List.filter_cons, List.filter_nil, decide_eq_false hb, decide_eq_true hm]
        simp
      rw [hnext, show ([1] : List ℕ) ++ ([] : List ℕ) = [1] from rfl,
        hstep1 (A ++ segTail [A, B] 0)]
      rfl
  rw [mergeLoop_visit [A, B] fc lc 0 [1] [] [] (by simp),
    show ([A, B] : List (List Point)).getD 0 [] = A from rfl, hstep0]
  rfl

/-- Evaluation of two segments with no endpoint match between them, for any
endpoint columns: two singleton groups, each its segment's full list
followed by that segment's tail (self-matches are skipped as visited). -/
theorem mergeLoop_two_disconnected (A B : List Point) (fc lc : List Point)
    (h01 : fc.getD 1 (0, 0) ≠ lc.getD 0 (0, 0))
    (h10 : fc.getD 0 (0, 0) ≠ lc.getD 1 (0, 0)) :
    mergeLoop [A, B] fc lc [0, 1] [] []
      = ([1, 0], [A ++ A.drop 1, B ++ B.drop 1]) := by
  have hstep0 : dfsMerge [A, B] fc lc [0] [] A = ([0], A ++ A.drop 1) := by
    rw [dfsMerge_visit [A, B] fc lc 0 [] [] A (by simp) (by simp)]
    rw [dfsMerge_drain [A, B] fc lc _ [0] (A ++ segTail [A, B] 0) ?_]
    · rfl
    · intro j hj
      rw [List.append_nil] at hj
      simp only [nextSegments] at hj
      have hj2 : j < 2 := List.mem_range.mp (List.mem_filter.mp hj).1
      have hj3 := (List.mem_filter.mp hj).2
      interval_cases j
      · simp
      · exact absurd (of_decide_eq_true hj3) h01
  have hstep1 : dfsMerge [A, B] fc lc [1] [0] B = ([1, 0], B ++ B.drop 1) := by
    rw [dfsMerge_visit [A, B] fc lc 1 [] [0] B (by simp) (by simp)]
    rw [dfsMerge_drain [A, B] fc lc _ [1, 0] (B ++ segTail [A, B] 1) ?_]
    · rfl
    · intro j hj
      rw [List.append_nil] at hj
      simp only [nextSegments] at hj
      have hj2 : j < 2 := List.mem_range.mp (List.mem_filter.mp hj).1
      have hj3 := (List.mem_filter.mp hj).2
      interval_cases j
      · exact absurd (of_decide_eq_true hj3) h10
      · simp
  rw [mergeLoop_visit [A, B] fc lc 0 [1] [] [] (by simp),
    show ([A, B] : List (List Point)).getD 0 [] = A from rfl, hstep0,
    show (([0] : List ℕ), A ++ A.drop 1).1 = [0] from rfl,
    show (([0] : List ℕ), A ++ A.drop 1).2 = A ++ A.drop 1 from rfl,
    mergeLoop_visit [A, B] fc lc 1 [] [0] ([] ++ [A ++ A.drop 1]) (by simp),
    show ([A, B] : List (List Point)).getD 1 [] = B from rfl, hstep1]
  rfl

/-- **C5** — Closed-loop termination.  A segment whose rounded first and
last coordinates coincide is merged into exactly one SuperSegment: the
visited-set check stops the traversal from revisiting the segment (its own
index reappears on the worklist once and is skipped there).  Termination of
the traversal on every finite input is built into the definition of
`dfsMerge`, whose recursion is well-founded by exactly the source's
visited-set argument: the number of unvisited indices decreases at every
visit. -/
theorem merge_closed_loop (cs : List Point)
    (h : round_coords (cs.headD (0, 0)) = round_coords (cs.getLastD (0, 0))) :
    mergeSegments [cs] = [cs ++ cs.drop 1] ∧ (mergeSegments [cs]).length = 1 := by
  have hout : mergeSegments [cs] = [cs ++ cs.drop 1] := by
    rw [show mergeSegments [cs]
        = (mergeLoop [cs] (firstCoords [cs]) (lastCoords [cs]) [0] [] []).2 from rfl,
      mergeLoop_single cs (firstCoords [cs]) (lastCoords [cs])]
  exact ⟨hout, by rw [hout]; rfl⟩

/-- Witness for C5 at the spec's closed-loop example `[(0,0),(1,0),(0,0)]`:
one SuperSegment, produced without revisiting the segment. -/
theorem merge_closed_loop_witness :
    mergeSegments [[((0 : ℚ), (0 : ℚ)), (1, 0), (0, 0)]]
        = [[((0 : ℚ), (0 : ℚ)), (1, 0), (0, 0), (1, 0), (0, 0)]] ∧
      (mergeSegments [[((0 : ℚ), (0 : ℚ)), (1, 0), (0, 0)]]).length = 1 :=
  merge_closed_loop [((0 : ℚ), (0 : ℚ)), (1, 0), (0, 0)] rfl

theorem getLast?_eq_some_getLastD {α : Type} :
    ∀ (l : List α), l ≠ [] → ∀ d : α, l.getLast? = some (l.getLastD d)
  | [], h, _ => absurd rfl h
  | [_], _, _ => by simp
  | x :: y :: t, _, d => by
    rw [List.getLast?_cons_cons, List.getLastD_cons]
    exact getLast?_eq_some_getLastD (y :: t) (by simp) x

/-- Dropping the first point of a segment with at least two points keeps its
exact last coordinate. -/
theorem getLast?_drop_one (g : List Point) (h : 2 ≤ g.length) :
    (g.drop 1).getLast? = some (g.getLastD (0, 0)) := by
  cases g with
  | nil => simp at h
  | cons a l =>
    cases l with
    | nil => simp at h
    | cons b t =>
      show (b :: t).getLast? = some ((a :: b :: t).getLastD (0, 0))
      rw [List.getLastD_cons]
      exact getLast?_eq_some_getLastD (b :: t) (by simp) a

theorem segTail_ne_nil (geoms : List (List Point))
    (hgeoms : ∀ g ∈ geoms, 2 ≤ g.length) (i : ℕ) (hi : i < geoms.length) :
    segTail geoms i ≠ [] := by
  have hmem : geoms.getD i [] ∈ geoms := by
    rw [List.getD_eq_getElem geoms [] hi]
    exact List.getElem_mem hi
  have hlen := hgeoms _ hmem
  rw [← List.length_pos]
  simp only [segTail, List.length_drop]
  omega

/-- The last point of an accumulating coordinate list, after appending the
after-the-first points of the segments `L` in order, is the exact unrounded
last coordinate of the last segment of `L`. -/
theorem flatten_tails_getLast (geoms : List (List Point))
    (hgeoms : ∀ g ∈ geoms, 2 ≤ g.length) :
    ∀ (L : List ℕ) (P : List Point), L ≠ [] → (∀ i ∈ L, i < geoms.length) →
      (P ++ (L.map (segTail geoms)).flatten).getLast?
        = some ((geoms.getD (L.getLastD 0) []).getLastD (0, 0))
  | [], _, h, _ => absurd rfl h
  | [i], P, _, hlt => by
    have hi : i < geoms.length := hlt i (by simp)
    have hne := segTail_ne_nil geoms hgeoms i hi
    have hmem : geoms.getD i [] ∈ geoms := by
      rw [List.getD_eq_getElem geoms [] hi]
      exact List.getElem_mem hi
    rw [show (([i] : List ℕ).map (segTail geoms)).flatten = segTail geoms i by simp,
      List.getLast?_append_of_ne_nil P hne,
      show ([i] : List ℕ).getLastD 0 = i by simp]
    exact getLast?_drop_one _ (hgeoms _ hmem)
  | i :: j :: L', P, _, hlt => by
    have heq : (((i :: j :: L') : List ℕ).map (segTail geoms)).flatten
        = segTail geoms i ++ ((j :: L').map (segTail geoms)).flatten := by
      simp
    rw [heq,
      show P ++ (segTail geoms i ++ ((j :: L').map (segTail geoms)).flatten)
          = (P ++ segTail geoms i) ++ ((j :: L').map (segTail geoms)).flatten from
        (List.append_assoc _ _ _).symm,
      flatten_tails_getLast geoms hgeoms (j :: L') (P ++ segTail geoms i)
        (by simp) (fun x hx => hlt x (List.mem_cons_of_mem i hx))]
    have hdd : ((j :: L') : List ℕ).getLastD i = (j :: L').getLastD 0 := by
      have h1 := getLast?_eq_some_getLastD (j :: L') (by simp) i
      have h2 := getLast?_eq_some_getLastD (j :: L') (by simp) (0 : ℕ)
      rw [h1] at h2
      exact Option.some.inj h2
    have hcons : ((i :: j :: L') : List ℕ).getLastD 0 = (j :: L').getLastD 0 := by
      rw [List.getLastD_cons]
      exact hdd
    rw [hcons]

/-- **C9** — Chain contribution, for every merged SuperSegment.  On any
input whose segments all have at least two points, every output
SuperSegment is `groupCoords` of its member-index list: the starting
segment's full coordinate list followed by each visited member's points
after the first, in visit order.  For any decomposition of that member list
as `pre ++ i :: post` with `pre` non-empty — that is, for each non-starting
segment `i` of a SuperSegment built from two or more chained segments — the
SuperSegment splits as the coordinates contributed by `pre`, then exactly
segment `i`'s points after the first (its own first coordinate is
discarded), then the later members' tails; and the output point immediately
preceding `i`'s contribution — the join point — is the exact, unrounded
last coordinate of the immediately preceding member, also when the two
coordinates differ only within the rounding tolerance (see the witness). -/
theorem merge_chain_contribution (geoms : List (List Point))
    (hgeoms : ∀ g ∈ geoms, 2 ≤ g.length) :
    ∃ memberss : List (List ℕ),
      mergeSegments geoms = memberss.map (groupCoords geoms) ∧
      ∀ ms ∈ memberss, ∀ (pre : List ℕ) (i : ℕ) (post : List ℕ),
        ms = pre ++ i :: post → pre ≠ [] →
        groupCoords geoms ms
          = groupCoords geoms pre ++ (geoms.getD i []).drop 1
            ++ ((post.map (segTail geoms)).flatten) ∧
        (groupCoords geoms pre).getLast?
          = some ((geoms.getD (pre.getLastD 0) []).getLastD (0, 0)) := by
  obtain ⟨memberss, c1, _c2, _c3, _c4, c5, _c6, _c7⟩ :=
    mergeLoop_run geoms (firstCoords geoms) (lastCoords geoms)
      (List.range geoms.length) [] [] List.nodup_nil
      (fun j hj => List.mem_range.mp hj)
  refine ⟨memberss, by simpa [mergeSegments] using c1, ?_⟩
  intro ms hms pre i post hdecomp hpre
  have hbound : ∀ j ∈ ms, j < geoms.length := fun j hj =>
    c5 j (List.mem_flatten.mpr ⟨ms, hms, hj⟩)
  constructor
  · subst hdecomp
    obtain ⟨p0, pre', rfl⟩ : ∃ p0 pre', pre = p0 :: pre' := by
      cases pre with
      | nil => exact absurd rfl hpre
      | cons a b => exact ⟨a, b, rfl⟩
    simp [groupCoords, segTail, List.append_assoc]
  · have hpresub : ∀ x ∈ pre, x < geoms.length := fun x hx =>
      hbound x (by rw [hdecomp]; exact List.mem_append_left _ hx)
    exact flatten_tails_getLast geoms hgeoms pre
      (geoms.getD (pre.headD 0) []) hpre hpresub

/-- Witness for C9 at the spec's chain-correctness example: the general
theorem instantiated at two segments where `A` ends at the exact point
`(1, 1)` and `B` starts at the exact point `(1.0001, 1.0002)` — the two
differ but round to the same coordinate — together with the concrete merged
output, which joins `B`'s tail directly after `A`'s exact last point `(1,1)`
and discards `(1.0001, 1.0002)`. -/
theorem merge_chain_contribution_witness :
    (∃ memberss : List (List ℕ),
      mergeSegments [[((0 : ℚ), (0 : ℚ)), (1, 1)], [(1.0001, 1.0002), (2, 2)]]
        = memberss.map
            (groupCoords [[((0 : ℚ), (0 : ℚ)), (1, 1)], [(1.0001, 1.0002), (2, 2)]]) ∧
      ∀ ms ∈ memberss, ∀ (pre : List ℕ) (i : ℕ) (post : List ℕ),
        ms = pre ++ i :: post → pre ≠ [] →
        groupCoords [[((0 : ℚ), (0 : ℚ)), (1, 1)], [(1.0001, 1.0002), (2, 2)]] ms
          = groupCoords [[((0 : ℚ), (0 : ℚ)), (1, 1)], [(1.0001, 1.0002), (2, 2)]] pre
            ++ (([[((0 : ℚ), (0 : ℚ)), (1, 1)],
                  [(1.0001, 1.0002), (2, 2)]].getD i []).drop 1)
            ++ ((post.map
                (segTail [[((0 : ℚ), (0 : ℚ)), (1, 1)], [(1.0001, 1.0002), (2, 2)]])).flatten) ∧
        (groupCoords [[((0 : ℚ), (0 : ℚ)), (1, 1)], [(1.0001, 1.0002), (2, 2)]] pre).getLast?
          = some (([[((0 : ℚ), (0 : ℚ)), (1, 1)],
              [(1.0001, 1.0002), (2, 2)]].getD (pre.getLastD 0) []).getLastD (0, 0))) ∧
    mergeSegments [[((0 : ℚ), (0 : ℚ)), (1, 1)], [(1.0001, 1.0002), (2, 2)]]
      = [[((0 : ℚ), (0 : ℚ)), (1, 1), (1, 1), (2, 2)]] :=
  ⟨merge_chain_contribution [[((0 : ℚ), (0 : ℚ)), (1, 1)], [(1.0001, 1.0002), (2, 2)]]
    (by decide),
   by rw [show mergeSegments [[((0 : ℚ), (0 : ℚ)), (1, 1)], [(1.0001, 1.0002), (2, 2)]]
        = (mergeLoop [[((0 : ℚ), (0 : ℚ)), (1, 1)], [(1.0001, 1.0002), (2, 2)]]
            (firstCoords [[((0 : ℚ), (0 : ℚ)), (1, 1)], [(1.0001, 1.0002), (2, 2)]])
            (lastCoords [[((0 : ℚ), (0 : ℚ)), (1, 1)], [(1.0001, 1.0002), (2, 2)]])
            [0, 1] [] []).2 from rfl,
      mergeLoop_chain [((0 : ℚ), (0 : ℚ)), (1, 1)] [(1.0001, 1.0002), (2, 2)]
        (firstCoords [[((0 : ℚ), (0 : ℚ)), (1, 1)], [(1.0001, 1.0002), (2, 2)]])
        (lastCoords [[((0 : ℚ), (0 : ℚ)), (1, 1)], [(1.0001, 1.0002), (2, 2)]])
        (by show round_coords (1.0001, 1.0002) = round_coords (1, 1)
            simp only [round_coords, round3q, Prod.mk.injEq]
            norm_num [round_eq])]
      rfl⟩

/-- **C7** — Evaluation at the failing input: a single segment
`[(0,0),(1,0)]`, trivially sharing no rounded endpoint with any other
segment, merges to the point sequence `[(0,0),(1,0),(1,0)]`, not to its own
point sequence: the outer loop seeds the group with the segment's full
coordinate list (src/app.py line 66) and `build_super_segment` then appends
its coordinates after the first once more (line 58), duplicating the
starting segment's tail — contradicting the code's own aim of avoiding
duplicate points and the spec's idempotence property. -/
theorem merge_singleton_duplicates_tail :
    mergeSegments [[((0 : ℚ), (0 : ℚ)), (1, 0)]]
      = [[((0 : ℚ), (0 : ℚ)), (1, 0), (1, 0)]] := by
  rw [show mergeSegments [[((0 : ℚ), (0 : ℚ)), (1, 0)]]
      = (mergeLoop [[((0 : ℚ), (0 : ℚ)), (1, 0)]]
          (firstCoords [[((0 : ℚ), (0 : ℚ)), (1, 0)]])
          (lastCoords [[((0 : ℚ), (0 : ℚ)), (1, 0)]]) [0] [] []).2 from rfl,
    mergeLoop_single [((0 : ℚ), (0 : ℚ)), (1, 0)]
      (firstCoords [[((0 : ℚ), (0 : ℚ)), (1, 0)]])
      (lastCoords [[((0 : ℚ), (0 : ℚ)), (1, 0)]])]
  rfl

/-- **C6** (amended) — The source's endpoint matching behaves exactly like
the spec-modelled parametric merge instantiated at precision `3`: the
rounding precision is the hard-coded constant `3`, not a caller-supplied
parameter. -/
theorem merge_equals_precision_three (geoms : List (List Point)) :
    mergeSegmentsAt 3 geoms = mergeSegments geoms := by
  have hr : round_coords_at 3 = round_coords := by
    funext c
    simp only [round_coords_at, round_coords, roundToPrecision, round3q,
      Prod.mk.injEq]
    norm_num
  simp [mergeSegmentsAt, mergeSegments, firstCoords, lastCoords, hr]

/-- Witness for the amended C6 at the two example segments. -/
theorem merge_equals_precision_three_witness :
    mergeSegmentsAt 3 exPrecision = mergeSegments exPrecision :=
  merge_equals_precision_three exPrecision

/-- **C6** counterexample — The code's merge takes no precision argument;
its behaviour on `exPrecision` coincides with the parametric merge at
precision `3` (two separate SuperSegments) and differs from precision `2`
(one chained SuperSegment), so endpoint matching is fixed at three decimal
places rather than rounding to a caller-supplied precision. -/
theorem merge_precision_counterexample :
    mergeSegmentsAt 2 exPrecision ≠ mergeSegments exPrecision ∧
    (mergeSegments exPrecision).length = 2 ∧
    (mergeSegmentsAt 2 exPrecision).length = 1 := by
  have h3 : mergeSegments exPrecision
      = [[((0 : ℚ), (0 : ℚ)), (1.0006, 0), (1.0006, 0)],
         [((1.0021 : ℚ), (0 : ℚ)), (2, 0), (2, 0)]] := by
    have h01 : (firstCoords exPrecision).getD 1 (0, 0)
        ≠ (lastCoords exPrecision).getD 0 (0, 0) := by
      show round_coords (1.0021, 0) ≠ round_coords (1.0006, 0)
      intro heq
      have h1 := congrArg Prod.fst heq
      norm_num [round_coords, round3q, round_eq] at h1
    have h10 : (firstCoords exPrecision).getD 0 (0, 0)
        ≠ (lastCoords exPrecision).getD 1 (0, 0) := by
      show round_coords (0, 0) ≠ round_coords (2, 0)
      intro heq
      have h1 := congrArg Prod.fst heq
      norm_num [round_coords, round3q, round_eq] at h1
    rw [show mergeSegments exPrecision
        = (mergeLoop exPrecision (firstCoords exPrecision)
            (lastCoords exPrecision) [0, 1] [] []).2 from rfl,
      mergeLoop_two_disconnected [(0, 0), (1.0006, 0)] [(1.0021, 0), (2, 0)]
        (firstCoords exPrecision) (lastCoords exPrecision) h01 h10]
    rfl
  have h2 : mergeSegmentsAt 2 exPrecision
      = [[((0 : ℚ), (0 : ℚ)), (1.0006, 0), (1.0006, 0), (2, 0)]] := by
    have hm : (exPrecision.map (fun g => round_coords_at 2 (g.headD (0, 0)))).getD 1 (0, 0)
        = (exPrecision.map (fun g => round_coords_at 2 (g.getLastD (0, 0)))).getD 0 (0, 0) := by
      show round_coords_at 2 (1.0021, 0) = round_coords_at 2 (1.0006, 0)
      simp only [round_coords_at, roundToPrecision, Prod.mk.injEq]
      norm_num [round_eq]
    rw [show mergeSegmentsAt 2 exPrecision
        = (mergeLoop exPrecision
            (exPrecision.map (fun g => round_coords_at 2 (g.headD (0, 0))))
            (exPrecision.map (fun g => round_coords_at 2 (g.getLastD (0, 0))))
            [0, 1] [] []).2 from rfl,
      mergeLoop_chain [(0, 0), (1.0006, 0)] [(1.0021, 0), (2, 0)] _ _ hm]
    rfl
  refine ⟨?_, by rw [h3]; rfl, by rw [h2]; rfl⟩
  rw [h2, h3]
  simp

/-- **C2** counterexample — The merge mutates the caller's frame: after the
call, the input frame's column list has gained `first_coord` and
`last_coord`, so the input collection's set of fields is not what it was
before the call. -/
theorem merge_mutates_columns_counterexample :
    (merge_connected_segments
        ⟨[⟨[(0, 0), (1, 0)], none, none⟩], ["geometry"]⟩).1.columns
      ≠ (⟨[⟨[(0, 0), (1, 0)], none, none⟩], ["geometry"]⟩ : GeoFrame).columns := by
  decide

theorem subset_addColumn (cols : List String) (c : String) :
    cols ⊆ addColumn cols c := by
  unfold addColumn
  split
  · exact fun x hx => hx
  · exact fun x hx => List.mem_append_left _ hx

theorem mem_addColumn_self (cols : List String) (c : String) :
    c ∈ addColumn cols c := by
  unfold addColumn
  split
  · assumption
  · simp

theorem mem_addColumn_of_mem (cols : List String) (c x : String) (h : x ∈ cols) :
    x ∈ addColumn cols c := by
  unfold addColumn
  split
  · exact h
  · exact List.mem_append_left _ h

/-- **C2** (amended) — The merge leaves every input segment untouched: each
row's point sequence and `count`/`percentage` attributes are exactly what
they were before the call, and every pre-existing field is kept.  But the
input collection's set of fields does change: the call adds the
`first_coord` and `last_coord` columns to the caller's frame, so whenever
`first_coord` was not already a field, the field set after the call differs
from the field set before it. -/
theorem merge_preserves_rows_adds_columns (gdf : GeoFrame) :
    (merge_connected_segments gdf).1.rows = gdf.rows ∧
    gdf.columns ⊆ (merge_connected_segments gdf).1.columns ∧
    "first_coord" ∈ (merge_connected_segments gdf).1.columns ∧
    "last_coord" ∈ (merge_connected_segments gdf).1.columns ∧
    ("first_coord" ∉ gdf.columns →
      (merge_connected_segments gdf).1.columns ≠ gdf.columns) := by
  refine ⟨rfl, ?_, ?_, ?_, ?_⟩
  · exact fun x hx => subset_addColumn _ _ (subset_addColumn _ _ hx)
  · exact mem_addColumn_of_mem _ _ _ (mem_addColumn_self _ _)
  · exact mem_addColumn_self _ _
  · intro hno heq
    exact hno (heq ▸ mem_addColumn_of_mem _ _ _ (mem_addColumn_self _ _))

/-- Witness for the amended C2 at a one-segment frame whose only field is
`geometry`: rows survive unchanged while the field set changes. -/
theorem merge_preserves_rows_adds_columns_witness :
    (merge_connected_segments
        ⟨[⟨[((2 : ℚ), (3 : ℚ)), (4, 5)], some 7, some 9⟩], ["geometry"]⟩).1.rows
      = [⟨[((2 : ℚ), (3 : ℚ)), (4, 5)], some 7, some 9⟩] ∧
    (merge_connected_segments
        ⟨[⟨[((2 : ℚ), (3 : ℚ)), (4, 5)], some 7, some 9⟩], ["geometry"]⟩).1.columns
      ≠ ["geometry"] :=
  ⟨(merge_preserves_rows_adds_columns
      ⟨[⟨[((2 : ℚ), (3 : ℚ)), (4, 5)], some 7, some 9⟩], ["geometry"]⟩).1,
   (merge_preserves_rows_adds_columns
      ⟨[⟨[((2 : ℚ), (3 : ℚ)), (4, 5)], some 7, some 9⟩], ["geometry"]⟩).2.2.2.2
     (by decide)⟩

/-! ## Classifier theorems -/

/-- **C1** — Error policy of the classifier.  The quantile cutpoint sequence
is the hard-coded `[0, 30, 50, 70, 90]`: non-empty, strictly increasing and
inside `[0, 100]`, so the invalid-cutpoint failure the spec names
`InvalidInputError` can never arise in any invocation.  The classifier fails
— with the error the spec names `EmptyDatasetError`, raised by the quantile
computation — exactly when the segment collection is empty, and an
`Except.error` result carries no classification output, partial or
otherwise. -/
theorem classifier_error_policy :
    (quantile_cutpoints ≠ [] ∧ quantile_cutpoints.Pairwise (· < ·) ∧
      ∀ q ∈ quantile_cutpoints, 0 ≤ q ∧ q ≤ 100) ∧
    ∀ rows : List SegRow,
      plot_linestrings rows = Except.error ClassifierError.emptyDataset
        ↔ rows = [] := by
  refine ⟨⟨by decide, ?_, by decide⟩, ?_⟩
  · decide
  · intro rows
    cases rows with
    | nil => simp [plot_linestrings, npPercentile]
    | cons r t => simp [plot_linestrings, npPercentile]

/-- Witness for C1: the empty collection really does fail with the
empty-dataset error. -/
theorem classifier_error_policy_witness :
    plot_linestrings [] = Except.error ClassifierError.emptyDataset :=
  (classifier_error_policy.2 []).mpr rfl

theorem length_filter_lt_le (a : List ℚ) (s : ℚ) :
    (a.filter (fun x => decide (x < s))).length
      ≤ (a.filter (fun x => decide (x ≤ s))).length := by
  induction a with
  | nil => simp
  | cons y t ih =>
    by_cases h : y < s
    · simp [List.filter_cons, h, le_of_lt h]
      omega
    · by_cases h2 : y ≤ s
      · simp [List.filter_cons, h, h2]
        omega
      · simp [List.filter_cons, h, h2]
        exact ih

theorem length_filter_le_split (a : List ℚ) (s : ℚ) :
    (a.filter (fun x => decide (x ≤ s))).length
      = (a.filter (fun x => decide (x < s))).length
        + (a.filter (fun x => decide (x = s))).length := by
  induction a with
  | nil => simp
  | cons y t ih =>
    rcases lt_trichotomy y s with h | h | h
    · simp [List.filter_cons, h, le_of_lt h, ne_of_lt h]
      omega
    · simp [List.filter_cons, h]
      omega
    · simp [List.filter_cons, not_le.mpr h, not_lt.mpr (le_of_lt h), ne_of_gt h]
      exact ih

theorem length_filter_lt_lt_of_mem (a : List ℚ) (s : ℚ) (hs : s ∈ a) :
    (a.filter (fun x => decide (x < s))).length
      < (a.filter (fun x => decide (x ≤ s))).length := by
  induction a with
  | nil => simp at hs
  | cons y t ih =>
    rcases List.mem_cons.mp hs with rfl | hs'
    · have hle := length_filter_lt_le t s
      simp [List.filter_cons]
      omega
    · have hlt := ih hs'
      by_cases h : y < s
      · simp [List.filter_cons, h, le_of_lt h]
        omega
      · by_cases h2 : y ≤ s
        · simp [List.filter_cons, h, h2]
          omega
        · simp [List.filter_cons, h, h2]
          exact hlt

/-- When the score occurs in the distribution (as every segment's own count
does), scipy's default 'rank' convention exceeds the spec's mean-tie value
by exactly half of one observation's share, `50 / n`. -/
theorem percentileofscore_rank_formula (a : List ℚ) (s : ℚ) (hs : s ∈ a) :
    percentileofscore a s = percentileRankMean a s + 50 / (a.length : ℚ) := by
  have hne : a ≠ [] := by rintro rfl; simp at hs
  have hn0 : a.length ≠ 0 := fun h => hne (List.length_eq_zero.mp h)
  have hn : (a.length : ℚ) ≠ 0 := Nat.cast_ne_zero.mpr hn0
  have hsplit := length_filter_le_split a s
  have hlt := length_filter_lt_lt_of_mem a s hs
  simp only [percentileofscore, percentileRankMean]
  rw [if_pos hlt, hsplit]
  push_cast
  field_simp
  ring

/-- **C3** (amended) — For every segment of a non-empty classified
collection, the computed percentile rank is scipy's default `kind='rank'`
value: the mean-tie percentile rank of the claim **plus `50 / n`** (half of
one observation's share), because the segment's own count always occurs in
the distribution. -/
theorem classifier_percentile_rank (rows : List SegRow) (hne : rows ≠ []) :
    ∃ outs, plot_linestrings rows = Except.ok outs ∧
      ∀ o ∈ outs, ∃ r ∈ rows,
        o.1 = percentileofscore (rows.map fillCount) (fillCount r) ∧
        o.1 = percentileRankMean (rows.map fillCount) (fillCount r)
            + 50 / (rows.length : ℚ) := by
  cases rows with
  | nil => exact absurd rfl hne
  | cons r0 t =>
    refine ⟨_, rfl, ?_⟩
    intro o ho
    obtain ⟨r, hrmem, rfl⟩ := List.mem_map.mp ho
    refine ⟨r, hrmem, rfl, ?_⟩
    have hmem : fillCount r ∈ (r0 :: t).map fillCount :=
      List.mem_map_of_mem fillCount hrmem
    have hform := percentileofscore_rank_formula ((r0 :: t).map fillCount)
      (fillCount r) hmem
    rw [List.length_map] at hform
    exact hform

/-- Witness for the amended C3 at `rows4` (counts 1, 2, 3, 4), together with
a concrete evaluation: for the segment with count 3, the mean-tie value is
62.5, `50 / n` is 12.5, and the computed rank is 75. -/
theorem classifier_percentile_rank_witness :
    (∃ outs, plot_linestrings rows4 = Except.ok outs ∧
      ∀ o ∈ outs, ∃ r ∈ rows4,
        o.1 = percentileofscore (rows4.map fillCount) (fillCount r) ∧
        o.1 = percentileRankMean (rows4.map fillCount) (fillCount r)
            + 50 / (rows4.length : ℚ)) ∧
    percentileRankMean (rows4.map fillCount) 3 + 50 / (rows4.length : ℚ) = 75 :=
  ⟨classifier_percentile_rank rows4 (by decide),
   by show percentileRankMean [(1 : ℚ), 2, 3, 4] 3 + 50 / ((4 : ℕ) : ℚ) = 75
      norm_num [percentileRankMean, List.filter_cons, List.filter_nil]⟩

/-- **C3** counterexample — On counts `1, 2, 3, 4` the classifier computes
percentile rank `75` for the count-3 segment (scipy's default `kind='rank'`
convention), whereas the claim's mean-tie formula — percentage strictly less
(50) plus half the percentage equal (12.5) — gives `62.5`. -/
theorem percentile_rank_counterexample :
    ∃ outs, plot_linestrings rows4 = Except.ok outs ∧
      (outs.getD 2 (0, 0)).1 = 75 ∧
      percentileRankMean (rows4.map fillCount) ((rows4.map fillCount).getD 2 0)
        = 125 / 2 ∧
      (75 : ℚ) ≠ 125 / 2 :=
  ⟨_, rfl,
   by show percentileofscore [(1 : ℚ), 2, 3, 4] 3 = 75
      norm_num [percentileofscore, List.filter_cons, List.filter_nil],
   by show percentileRankMean [(1 : ℚ), 2, 3, 4] 3 = 125 / 2
      norm_num [percentileRankMean, List.filter_cons, List.filter_nil],
   by norm_num⟩

theorem foldl_min_const (c : ℚ) :
    ∀ (l : List ℚ) (acc : ℚ), (∀ x ∈ l, x = c) → acc = c →
      l.foldl min acc = c
  | [], acc, _, hacc => hacc
  | x :: xs, acc, hall, hacc => by
    rw [List.foldl_cons]
    refine foldl_min_const c xs (min acc x) (fun y hy => hall y (by simp [hy])) ?_
    rw [hacc, hall x (by simp), min_self]

theorem foldl_max_const (c : ℚ) :
    ∀ (l : List ℚ) (acc : ℚ), (∀ x ∈ l, x = c) → acc = c →
      l.foldl max acc = c
  | [], acc, _, hacc => hacc
  | x :: xs, acc, hall, hacc => by
    rw [List.foldl_cons]
    refine foldl_max_const c xs (max acc x) (fun y hy => hall y (by simp [hy])) ?_
    rw [hacc, hall x (by simp), max_self]

theorem colMin_const (l : List ℚ) (c : ℚ) (h : ∀ x ∈ l, x = c) (hne : l ≠ []) :
    colMin l = c := by
  cases l with
  | nil => exact absurd rfl hne
  | cons x xs =>
    exact foldl_min_const c xs x (fun y hy => h y (by simp [hy])) (h x (by simp))

theorem colMax_const (l : List ℚ) (c : ℚ) (h : ∀ x ∈ l, x = c) (hne : l ≠ []) :
    colMax l = c := by
  cases l with
  | nil => exact absurd rfl hne
  | cons x xs =>
    exact foldl_max_const c xs x (fun y hy => h y (by simp [hy])) (h x (by simp))

/-- **C8** — Constant-percentage width.  `8` is the maximum of the width
range the code actually produces (`scale_width` never exceeds it on
in-range values), and on a non-empty collection whose filled `percentage`
column is constant the guard `max_val > min_val` fails, so the division is
never evaluated and every segment's display width is that maximum, `8`. -/
theorem classifier_constant_percentage_width :
    (∀ v mn mx : ℚ, mn ≤ v → v ≤ mx → scale_width v mn mx ≤ 8) ∧
    ∀ (rows : List SegRow) (c : ℚ), rows ≠ [] →
      (∀ r ∈ rows, fillPercentage r = c) →
      ∃ outs, plot_linestrings rows = Except.ok outs ∧
        ∀ o ∈ outs, o.2 = 8 := by
  constructor
  · intro v mn mx h1 h2
    unfold scale_width
    split
    · rename_i hgt
      have h3 : (v - mn) / (mx - mn) ≤ 1 := by
        rw [div_le_one (by linarith)]
        linarith
      linarith
    · norm_num
  · intro rows c hne hall
    cases rows with
    | nil => exact absurd rfl hne
    | cons r0 t =>
      refine ⟨_, rfl, ?_⟩
      intro o ho
      obtain ⟨r, hrmem, rfl⟩ := List.mem_map.mp ho
      have hmin : colMin ((r0 :: t).map fillPercentage) = c :=
        colMin_const _ c
          (fun x hx => by
            obtain ⟨r', hr', rfl⟩ := List.mem_map.mp hx
            exact hall r' hr')
          (by simp)
      have hmax : colMax ((r0 :: t).map fillPercentage) = c :=
        colMax_const _ c
          (fun x hx => by
            obtain ⟨r', hr', rfl⟩ := List.mem_map.mp hx
            exact hall r' hr')
          (by simp)
      show scale_width (fillPercentage r) _ _ = 8
      rw [hall r hrmem, hmin, hmax]
      norm_num [scale_width]

/-- Witness for C8: a one-segment collection with `percentage = 5` gets
width `8`, and `scale_width` stays within `8` at an interior value. -/
theorem classifier_constant_percentage_width_witness :
    scale_width 3 2 7 ≤ 8 ∧
    (∃ outs,
      plot_linestrings [⟨[((0 : ℚ), (0 : ℚ)), (1, 1)], some 1, some 5⟩]
        = Except.ok outs ∧ ∀ o ∈ outs, o.2 = 8) :=
  ⟨classifier_constant_percentage_width.1 3 2 7 (by norm_num) (by norm_num),
   classifier_constant_percentage_width.2
     [⟨[((0 : ℚ), (0 : ℚ)), (1, 1)], some 1, some 5⟩] 5 (by simp) (by decide)⟩

/-- **C10** — The actual width formula and range.  For percentages strictly
between a distinct minimum and maximum, `scale_width` returns
`6 + 2 * (value - min) / (max - min)`, which lies in `[6, 8]` — in
particular it is never in the `[1, 5]` range stated by the function's own
docstring ("Scales line width between 1 and 5"). -/
theorem scale_width_formula_and_range (v mn mx : ℚ)
    (h : mn < mx) (h1 : mn ≤ v) (h2 : v ≤ mx) :
    scale_width v mn mx = 6 + 2 * ((v - mn) / (mx - mn)) ∧
    6 ≤ scale_width v mn mx ∧ scale_width v mn mx ≤ 8 ∧
    ¬ scale_width v mn mx ≤ 5 := by
  have heq : scale_width v mn mx = 6 + 2 * ((v - mn) / (mx - mn)) := by
    simp [scale_width, h]
  have hr0 : 0 ≤ (v - mn) / (mx - mn) :=
    div_nonneg (by linarith) (by linarith)
  have hr1 : (v - mn) / (mx - mn) ≤ 1 := by
    rw [div_le_one (by linarith)]
    linarith
  refine ⟨heq, by rw [heq]; linarith, by rw [heq]; linarith, by rw [heq]; linarith⟩

/-- Witness for C10 at the midpoint of `[0, 100]`: width `7`, inside
`[6, 8]` and outside the documented `[1, 5]`. -/
theorem scale_width_formula_and_range_witness :
    scale_width 50 0 100 = 6 + 2 * ((50 - 0) / (100 - 0)) ∧
    6 ≤ scale_width 50 0 100 ∧ scale_width 50 0 100 ≤ 8 ∧
    ¬ scale_width 50 0 100 ≤ 5 :=
  scale_width_formula_and_range 50 0 100 (by norm_num) (by norm_num) (by norm_num)

end Micromobility
